import Mathlib

/-!
Shallow embedding of the stock-data pipeline of this repository:

* the fetcher (`fetch_and_store_data` and the batch loop over the ticker
  list) of the data-fetching notebook,
* the feature engine of the preprocessing notebook (clean the `Adj Close`
  column, compute the per-ticker rolling / lagged columns with
  `groupby('Ticker')`, drop incomplete rows, and write the
  `processed_stocks` table with replace semantics),
* the scaling / splitting steps of the Random Forest and LSTM trainer
  notebooks.

Numeric columns are modelled over `ℚ` (the notebooks compute over IEEE
floats; exact rational arithmetic is the idealisation used throughout this
development).  A pandas `NaN` entry is modelled as `Option.none`.  The
`Volatility` column is `rolling(7).std()` (a square root); since the claims
about it compare definedness and the set of returns entering the window,
the development tracks the square of the standard deviation (the sample
variance with `ddof = 1`, exactly pandas' default); the square root, being
a strictly monotone bijection on nonnegatives, is omitted.
-/

namespace Project4

/-! ### Elementary statistics used by the column operations -/

/-- Arithmetic mean of a list of rationals (`0` for the empty list,
which never occurs in a rolling window of positive width). -/
def listMean (xs : List ℚ) : ℚ := xs.sum / (xs.length : ℚ)

/-- Sample variance with `ddof = 1`, the default of pandas'
`rolling(...).std()` squared. -/
def sampleVar (xs : List ℚ) : ℚ :=
  ((xs.map (fun x => (x - listMean xs) ^ 2)).sum) / ((xs.length : ℚ) - 1)

/-! ### Column operations of the feature-engineering cell

Each definition embeds one pandas series operation, viewed as a function
from the position `i` inside one ticker partition to the value of the
derived column at that position.  `xs` is the partition's `Adj Close`
column in stored order. -/

/-- Embeds `x.rolling(window=w).mean()`: the mean of the `w` entries at
positions `i-w+1 .. i`, `NaN` (here `none`) while fewer than `w` entries
are available (`min_periods` defaults to the window size). -/
def rollingMeanF (w : ℕ) (xs : List ℚ) (i : ℕ) : Option ℚ :=
  if i < xs.length then
    if w ≤ i + 1 then
      some (listMean ((List.range' (i + 1 - w) w).map (fun j => xs.getD j 0)))
    else none
  else none

/-- Embeds `x.pct_change()`: `xs[i] / xs[i-1] - 1`, `NaN` at the first
position of the partition. -/
def pctChangeF (xs : List ℚ) (i : ℕ) : Option ℚ :=
  if i < xs.length then
    if 1 ≤ i then some (xs.getD i 0 / xs.getD (i - 1) 0 - 1) else none
  else none

/-- Embeds `x.shift(k)`: the entry `k` positions earlier in the partition,
`NaN` for the first `k` positions. -/
def shiftF (k : ℕ) (xs : List ℚ) (i : ℕ) : Option ℚ :=
  if i < xs.length then
    if k ≤ i then some (xs.getD (i - k) 0) else none
  else none

/-- Embeds `x.rolling(window=w).std()` applied to an already-`NaN`-bearing
column (the daily returns) of length `n`: the sample standard deviation of
the window `i-w+1 .. i`, `NaN` while the window is short or while it still
contains a `NaN` (`min_periods = w` counts non-`NaN` observations).  The
value is tracked as its square, the sample variance. -/
def rollingStdSqF (w n : ℕ) (col : ℕ → Option ℚ) (i : ℕ) : Option ℚ :=
  if i < n then
    if w ≤ i + 1 then
      if ((List.range' (i + 1 - w) w).map col).all Option.isSome then
        some (sampleVar (((List.range' (i + 1 - w) w).map col).filterMap id))
      else none
    else none
  else none

/-! ### Data model

A raw `stocks` row carries the columns written by the fetcher: `Date`,
`Ticker`, `Company`, `Open`, `High`, `Low`, `Close`, `Volume` and
`Adj Close`.  The `Adj Close` cell as read back from SQLite may hold a
number, a non-numeric value, or SQL `NULL`; the other numeric columns are
modelled as nullable rationals. -/

/-- A cell of the `Adj Close` column as read from the `stocks` table. -/
inductive RawCell where
  | num (q : ℚ)
  | nonNumeric
  | null
deriving DecidableEq

/-- Whether an `Adj Close` cell holds a number. -/
def RawCell.isNum : RawCell → Bool
  | .num _ => true
  | _ => false

/-- A row of the raw `stocks` table. -/
structure RawRow where
  date : ℤ
  ticker : String
  company : String
  openC : Option ℚ
  highC : Option ℚ
  lowC : Option ℚ
  closeC : Option ℚ
  volumeC : Option ℚ
  adjClose : RawCell
deriving DecidableEq

/-- A row surviving the cleaning step: its `Adj Close` is a number. -/
structure CleanRow where
  date : ℤ
  ticker : String
  company : String
  openC : Option ℚ
  highC : Option ℚ
  lowC : Option ℚ
  closeC : Option ℚ
  volumeC : Option ℚ
  adjClose : ℚ
deriving DecidableEq

/-- A row of the processed table before `dropna()`: the raw columns plus
the six derived columns (`Volatility` tracked as its square). -/
structure FeatRow where
  date : ℤ
  ticker : String
  company : String
  openC : Option ℚ
  highC : Option ℚ
  lowC : Option ℚ
  closeC : Option ℚ
  volumeC : Option ℚ
  adjClose : ℚ
  ma7 : Option ℚ
  ma14 : Option ℚ
  dailyRet : Option ℚ
  volSq : Option ℚ
  lag1 : Option ℚ
  lag2 : Option ℚ
deriving DecidableEq

/-- Placeholder clean row used as the `getD` default. -/
def dClean : CleanRow :=
  ⟨0, "", "", none, none, none, none, none, 0⟩

/-- Placeholder feature row used as the `getD` default. -/
def dFeat : FeatRow :=
  ⟨0, "", "", none, none, none, none, none, 0, none, none, none, none, none, none⟩

/-! ### Cleaning: `pd.to_numeric(errors='coerce')` then
`dropna(subset=['Adj Close'])` -/

/-- Embeds `pd.to_numeric(raw_data['Adj Close'], errors='coerce')` on one
cell: numbers pass through, anything else becomes `NaN`/null. -/
def coerceCell : RawCell → RawCell
  | .num q => .num q
  | _ => .null

/-- The coercion applied to the `Adj Close` column of one row. -/
def coerceAdjClose (r : RawRow) : RawRow :=
  { r with adjClose := coerceCell r.adjClose }

/-- Embeds `raw_data.dropna(subset=['Adj Close'])`: keep exactly the rows
whose `Adj Close` holds a number, all other columns untouched. -/
def dropnaAdjClose (rows : List RawRow) : List CleanRow :=
  rows.filterMap (fun r =>
    match r.adjClose with
    | .num q => some ⟨r.date, r.ticker, r.company, r.openC, r.highC, r.lowC,
        r.closeC, r.volumeC, q⟩
    | _ => none)

/-- The cleaning step of the preprocessing notebook: coerce `Adj Close`
to numeric, then drop the rows where it is null. -/
def cleanTable (raws : List RawRow) : List CleanRow :=
  dropnaAdjClose (raws.map coerceAdjClose)

/-! ### Ticker partitions (`groupby('Ticker')`) -/

/-- The rows of ticker `t` in stored order (raw table). -/
def tickerRowsR (t : String) (rows : List RawRow) : List RawRow :=
  rows.filter (fun r => r.ticker == t)

/-- The rows of ticker `t` in stored order (cleaned table). -/
def tickerRowsC (t : String) (rows : List CleanRow) : List CleanRow :=
  rows.filter (fun r => r.ticker == t)

/-- The rows of ticker `t` in stored order (feature table). -/
def tickerRowsF (t : String) (rows : List FeatRow) : List FeatRow :=
  rows.filter (fun r => r.ticker == t)

/-- The `Adj Close` column of ticker `t`'s partition, in stored order. -/
def groupAdj (t : String) (rows : List CleanRow) : List ℚ :=
  (tickerRowsC t rows).map (fun r => r.adjClose)

/-- Tags every row with its position inside its own ticker partition,
sweeping the table in stored order; `seen` is the prefix already passed.
This is how `groupby('Ticker').transform`/`shift`/`pct_change` align the
per-group results back onto the original rows. -/
def tagPosGo (seen : List CleanRow) : List CleanRow → List (CleanRow × ℕ)
  | [] => []
  | r :: rest =>
      (r, (seen.filter (fun x => x.ticker == r.ticker)).length)
        :: tagPosGo (seen ++ [r]) rest

/-- Every row of the table paired with its position in its ticker group. -/
def tagPos (rows : List CleanRow) : List (CleanRow × ℕ) :=
  tagPosGo [] rows

/-- Builds the feature row for clean row `r` sitting at position `p` of
its ticker partition inside table `rows`: the six derived columns of the
feature-engineering cell, each computed from the partition's `Adj Close`
column in stored order. -/
def mkFeat (rows : List CleanRow) (r : CleanRow) (p : ℕ) : FeatRow :=
  let adj := groupAdj r.ticker rows
  { date := r.date, ticker := r.ticker, company := r.company,
    openC := r.openC, highC := r.highC, lowC := r.lowC,
    closeC := r.closeC, volumeC := r.volumeC, adjClose := r.adjClose,
    ma7 := rollingMeanF 7 adj p,
    ma14 := rollingMeanF 14 adj p,
    dailyRet := pctChangeF adj p,
    volSq := rollingStdSqF 7 adj.length (pctChangeF adj) p,
    lag1 := shiftF 1 adj p,
    lag2 := shiftF 2 adj p }

/-- The feature-engineering cell before the final `dropna()`: every row
gains the `7-day MA`, `14-day MA`, `Daily Return`, `Volatility`, `Lag_1`
and `Lag_2` columns, computed per ticker partition. -/
def addDerived (rows : List CleanRow) : List FeatRow :=
  (tagPos rows).map (fun x => mkFeat rows x.1 x.2)

/-- Whether a feature row has no `NaN` in any column — the criterion of
the final `processed_data = raw_data.dropna()`, which inspects every
column, raw and derived alike. -/
def rowComplete (r : FeatRow) : Bool :=
  r.openC.isSome && r.highC.isSome && r.lowC.isSome && r.closeC.isSome &&
  r.volumeC.isSome && r.ma7.isSome && r.ma14.isSome && r.dailyRet.isSome &&
  r.volSq.isSome && r.lag1.isSome && r.lag2.isSome

/-- Whether all six derived columns of a feature row are defined. -/
def derivedComplete (r : FeatRow) : Bool :=
  r.ma7.isSome && r.ma14.isSome && r.dailyRet.isSome && r.volSq.isSome &&
  r.lag1.isSome && r.lag2.isSome

/-- Embeds the final `raw_data.dropna()` of the feature-engineering
cell. -/
def dropnaAll (rows : List FeatRow) : List FeatRow :=
  rows.filter rowComplete

/-- The feature table before the final `dropna()`. -/
def preTable (raws : List RawRow) : List FeatRow :=
  addDerived (cleanTable raws)

/-- The whole feature engine of the preprocessing notebook: clean the
`Adj Close` column, derive the six feature columns per ticker, drop every
row still holding a `NaN`. -/
def featureEngine (raws : List RawRow) : List FeatRow :=
  dropnaAll (preTable raws)

/-! ### A concrete single-ticker table (the spec's end-to-end scenario) -/

/-- One synthetic XOM raw row: day `i+1`, adjusted close `10 + i`, every
other numeric column present. -/
def xomRow (i : ℕ) : RawRow :=
  { date := (i : ℤ) + 1, ticker := "XOM", company := "Exxon Mobil",
    openC := some 1, highC := some 1, lowC := some 1, closeC := some 1,
    volumeC := some 1000, adjClose := .num ((10 + i : ℕ) : ℚ) }

/-- Fifteen raw XOM rows: days 1..15 with adjusted closes 10..24 and no
missing raw fields. -/
def xomRaw : List RawRow := (List.range 15).map xomRow

/-- C2: on the 15-day XOM table the processed output starts exactly at
0-based raw index 13 (day 14): the retained dates are `[14, 15]`. -/
theorem c2_first_retained_row_is_index13 :
    (featureEngine xomRaw).map (fun r => r.date) = [14, 15] := by decide

/-! ### Structural lemmas: the derive step respects ticker partitions -/

theorem mkFeat_ticker (rows : List CleanRow) (r : CleanRow) (p : ℕ) :
    (mkFeat rows r p).ticker = r.ticker := rfl

theorem mkFeat_date (rows : List CleanRow) (r : CleanRow) (p : ℕ) :
    (mkFeat rows r p).date = r.date := rfl

theorem tagPosGo_filter (t : String) :
    ∀ (rows seen : List CleanRow),
      (tagPosGo seen rows).filter (fun x => x.1.ticker == t) =
        tagPosGo (seen.filter (fun r => r.ticker == t))
          (rows.filter (fun r => r.ticker == t)) := by
  intro rows
  induction rows with
  | nil => intro seen; rfl
  | cons r rest ih =>
      intro seen
      by_cases h : r.ticker = t
      · subst h
        simp only [tagPosGo, List.filter_cons, beq_self_eq_true, if_pos,
          List.filter_append]
        rw [List.filter_filter]
        simp only [Bool.and_self, ih (seen ++ [r]), List.filter_append]
        simp [tagPosGo]
      · have hb : (r.ticker == t) = false := beq_eq_false_iff_ne.mpr h
        simp only [tagPosGo, List.filter_cons, hb, ih (seen ++ [r]),
          List.filter_append, List.filter_cons, cond_false]
        simp [hb]

theorem tagPosGo_uniform (t : String) :
    ∀ (g seen : List CleanRow),
      (∀ r ∈ g, r.ticker = t) → (∀ s ∈ seen, s.ticker = t) →
      tagPosGo seen g = g.zip (List.range' seen.length g.length) := by
  intro g
  induction g with
  | nil => intro seen _ _; rfl
  | cons r rest ih =>
      intro seen hg hs
      have hr : r.ticker = t := hg r (by simp)
      have hfil : seen.filter (fun x => x.ticker == r.ticker) = seen := by
        apply List.filter_eq_self.mpr
        intro s hsmem
        simp [hs s hsmem, hr]
      simp only [tagPosGo, hfil, List.length_cons, List.range'_succ, List.zip_cons_cons]
      congr 1
      rw [ih (seen ++ [r]) (fun x hx => hg x (by simp [hx]))
        (by intro s hsm; rcases List.mem_append.mp hsm with h1 | h1
            · exact hs s h1
            · simp only [List.mem_singleton] at h1; subst h1; exact hr)]
      simp [List.length_append]

theorem tickerRowsC_all (t : String) (rows : List CleanRow) :
    ∀ r ∈ tickerRowsC t rows, r.ticker = t := by
  intro r hr
  have := List.of_mem_filter hr
  exact eq_of_beq this

/-- Restricting the derived table to one ticker partition yields exactly
that partition's rows, tagged with the positions `0, 1, 2, ...` and fed
through `mkFeat`. -/
theorem derive_filter_ticker (t : String) (rows : List CleanRow) :
    tickerRowsF t (addDerived rows) =
      ((tickerRowsC t rows).zip (List.range' 0 (tickerRowsC t rows).length)).map
        (fun x => mkFeat rows x.1 x.2) := by
  unfold tickerRowsF addDerived tagPos
  rw [List.filter_map]
  have hc : ((fun r : FeatRow => r.ticker == t) ∘
      (fun x : CleanRow × ℕ => mkFeat rows x.1 x.2)) =
      (fun x : CleanRow × ℕ => x.1.ticker == t) := by
    funext x; simp [mkFeat_ticker]
  rw [hc, tagPosGo_filter t rows []]
  have : List.filter (fun r => r.ticker == t) [] = ([] : List CleanRow) := rfl
  rw [this]
  have hfold : List.filter (fun r => r.ticker == t) rows = tickerRowsC t rows := rfl
  rw [hfold]
  rw [tagPosGo_uniform t (tickerRowsC t rows) [] (tickerRowsC_all t rows)
    (by intro s hs; cases hs)]
  rfl

/-! ### Definedness of the derived columns at a given partition position -/

theorem rollingMeanF_isSome (w : ℕ) (xs : List ℚ) (i : ℕ) (hi : i < xs.length) :
    (rollingMeanF w xs i).isSome = decide (w ≤ i + 1) := by
  unfold rollingMeanF
  rw [if_pos hi]
  by_cases h : w ≤ i + 1
  · simp [h]
  · simp [h]

theorem pctChangeF_isSome (xs : List ℚ) (i : ℕ) (hi : i < xs.length) :
    (pctChangeF xs i).isSome = decide (1 ≤ i) := by
  unfold pctChangeF
  rw [if_pos hi]
  by_cases h : 1 ≤ i
  · simp [h]
  · simp [h]

theorem shiftF_isSome (k : ℕ) (xs : List ℚ) (i : ℕ) (hi : i < xs.length) :
    (shiftF k xs i).isSome = decide (k ≤ i) := by
  unfold shiftF
  rw [if_pos hi]
  by_cases h : k ≤ i
  · simp [h]
  · simp [h]

theorem rollingStdSqF_pct_isSome (xs : List ℚ) (i : ℕ) (hi : i < xs.length) :
    (rollingStdSqF 7 xs.length (pctChangeF xs) i).isSome = decide (7 ≤ i) := by
  unfold rollingStdSqF
  rw [if_pos hi]
  by_cases h : 7 ≤ i + 1
  · rw [if_pos h]
    by_cases h7 : 7 ≤ i
    · have hall : ((List.range' (i + 1 - 7) 7).map (pctChangeF xs)).all
          Option.isSome = true := by
        rw [List.all_eq_true]
        intro o ho
        rw [List.mem_map] at ho
        obtain ⟨j, hj, rfl⟩ := ho
        rw [List.mem_range'_1] at hj
        have hj1 : 1 ≤ j := by omega
        have hjn : j < xs.length := by omega
        rw [pctChangeF_isSome xs j hjn]
        simpa using hj1
      rw [if_pos hall]
      simp [h7]
    · have h6 : i = 6 := by omega
      subst h6
      have hmem : pctChangeF xs 0 ∈ (List.range' (6 + 1 - 7) 7).map (pctChangeF xs) := by
        refine List.mem_map.mpr ⟨0, ?_, rfl⟩
        rw [List.mem_range'_1]; omega
      have h0 : (pctChangeF xs 0).isSome = false := by
        rw [pctChangeF_isSome xs 0 (by omega)]; simp
      have hall : ((List.range' (6 + 1 - 7) 7).map (pctChangeF xs)).all
          Option.isSome = false := by
        rw [List.all_eq_false]
        exact ⟨pctChangeF xs 0, hmem, by simp [h0]⟩
      rw [if_neg (show ¬ ((List.range' (6 + 1 - 7) 7).map (pctChangeF xs)).all
        Option.isSome = true from by rw [hall]; simp)]
      simp
  · rw [if_neg h]
    have : ¬ 7 ≤ i := by omega
    simp [this]

/-- Raw numeric columns of a clean row are all present. -/
def cleanRawComplete (r : CleanRow) : Bool :=
  r.openC.isSome && r.highC.isSome && r.lowC.isSome && r.closeC.isSome &&
  r.volumeC.isSome

/-- For a clean row whose raw columns are all present, the `dropna()`
criterion at partition position `p` is exactly `13 ≤ p`: the 14-day
moving average is the derived column with the longest warm-up. -/
theorem rowComplete_mkFeat (rows : List CleanRow) (r : CleanRow) (p : ℕ)
    (hr : cleanRawComplete r = true)
    (hp : p < (groupAdj r.ticker rows).length) :
    rowComplete (mkFeat rows r p) = decide (13 ≤ p) := by
  unfold rowComplete mkFeat
  simp only []
  unfold cleanRawComplete at hr
  simp only [Bool.and_eq_true] at hr
  obtain ⟨⟨⟨⟨h1, h2⟩, h3⟩, h4⟩, h5⟩ := hr
  rw [h1, h2, h3, h4, h5,
    rollingMeanF_isSome 7 _ p hp, rollingMeanF_isSome 14 _ p hp,
    pctChangeF_isSome _ p hp, rollingStdSqF_pct_isSome _ p hp,
    shiftF_isSome 1 _ p hp, shiftF_isSome 2 _ p hp]
  by_cases h : 13 ≤ p
  · have c1 : 7 ≤ p + 1 := by omega
    have c2 : 14 ≤ p + 1 := by omega
    have c3 : 1 ≤ p := by omega
    have c4 : 7 ≤ p := by omega
    have c5 : 2 ≤ p := by omega
    simp [h, c1, c2, c3, c4, c5]
  · have hne : ¬ (14 ≤ p + 1) := by omega
    simp [h, hne]

/-! ### Filtering a position-tagged partition down to the warm-up cutoff -/

theorem zip_range'_filter_ge {α : Type} :
    ∀ (k : ℕ) (g : List α) (a : ℕ),
      (g.zip (List.range' a g.length)).filter (fun x => decide (a + k ≤ x.2)) =
        (g.drop k).zip (List.range' (a + k) (g.length - k)) := by
  intro k
  induction k with
  | zero =>
      intro g a
      simp only [Nat.add_zero, List.drop_zero, Nat.sub_zero]
      apply List.filter_eq_self.mpr
      intro x hx
      obtain ⟨x1, x2⟩ := x
      have := (List.of_mem_zip hx).2
      rw [List.mem_range'_1] at this
      simpa using this.1
  | succ k ih =>
      intro g a
      cases g with
      | nil => rfl
      | cons r rest =>
          simp only [List.length_cons, List.range'_succ, List.zip_cons_cons,
            List.filter_cons]
          have hhead : decide (a + (k + 1) ≤ (r, a).2) = false := by
            simp
          rw [hhead]
          have harg : (fun x : α × ℕ => decide (a + (k + 1) ≤ x.2)) =
              (fun x : α × ℕ => decide (a + 1 + k ≤ x.2)) := by
            funext x; congr 1; simp; omega
          rw [harg, ih rest (a + 1)]
          have hs : a + 1 + k = a + (k + 1) := by omega
          rw [hs]
          simp [Nat.succ_sub_succ]

/-! ### The cleaning step rewritten as filter-then-copy -/

/-- The numeric value of an `Adj Close` cell (`0` for non-numbers; only
applied to numeric cells). -/
def numValD : RawCell → ℚ
  | .num q => q
  | _ => 0

/-- Copies a raw row into a clean row, all columns preserved. -/
def cleanOf (r : RawRow) : CleanRow :=
  ⟨r.date, r.ticker, r.company, r.openC, r.highC, r.lowC, r.closeC,
    r.volumeC, numValD r.adjClose⟩

/-- Cleaning keeps exactly the rows with numeric `Adj Close`, each with
every column unchanged, and drops the rest. -/
theorem cleanTable_eq_filter_map (raws : List RawRow) :
    cleanTable raws =
      (raws.filter (fun r => r.adjClose.isNum)).map cleanOf := by
  unfold cleanTable
  induction raws with
  | nil => rfl
  | cons r rest ih =>
      obtain ⟨d, tk, co, o1, h1, l1, c1, v1, ac⟩ := r
      cases ac with
      | num q => exact congrArg (List.cons _) ih
      | nonNumeric => exact ih
      | null => exact ih

/-! ### Tables whose raw fields are all present -/

/-- Every nullable raw column present and `Adj Close` numeric. -/
def rawRowComplete (r : RawRow) : Bool :=
  r.openC.isSome && r.highC.isSome && r.lowC.isSome && r.closeC.isSome &&
  r.volumeC.isSome && r.adjClose.isNum

/-- Every row of the raw table has all fields present. -/
def rawsAllComplete (raws : List RawRow) : Bool :=
  raws.all rawRowComplete

theorem cleanOf_ticker (r : RawRow) : (cleanOf r).ticker = r.ticker := rfl

theorem cleanOf_date (r : RawRow) : (cleanOf r).date = r.date := rfl

theorem cleanTable_of_complete (raws : List RawRow)
    (h : rawsAllComplete raws = true) :
    cleanTable raws = raws.map cleanOf := by
  rw [cleanTable_eq_filter_map]
  congr 1
  apply List.filter_eq_self.mpr
  intro r hr
  have := List.all_eq_true.mp h r hr
  unfold rawRowComplete at this
  simp only [Bool.and_eq_true] at this
  exact this.2

theorem cleanRawComplete_cleanOf (r : RawRow) (h : rawRowComplete r = true) :
    cleanRawComplete (cleanOf r) = true := by
  unfold rawRowComplete at h
  unfold cleanRawComplete cleanOf
  simp only [Bool.and_eq_true] at h ⊢
  exact ⟨⟨⟨⟨h.1.1.1.1.1, h.1.1.1.1.2⟩, h.1.1.1.2⟩, h.1.1.2⟩, h.1.2⟩

theorem tickerRowsC_map_cleanOf (t : String) (raws : List RawRow) :
    tickerRowsC t (raws.map cleanOf) = (tickerRowsR t raws).map cleanOf := by
  unfold tickerRowsC tickerRowsR
  rw [List.filter_map]
  rfl

theorem groupAdj_length (t : String) (rows : List CleanRow) :
    (groupAdj t rows).length = (tickerRowsC t rows).length := by
  unfold groupAdj
  exact List.length_map _ _

/-- Under an all-fields-present raw table, the feature engine emits, for
every ticker, exactly that ticker's rows from per-group position 13 on:
the initial warm-up rows and only those are dropped, so the emitted dates
are the chronological raw dates with the first 13 removed. -/
theorem warmup_suffix (raws : List RawRow)
    (h : rawsAllComplete raws = true) (t : String) :
    (tickerRowsF t (featureEngine raws)).map (fun r => r.date) =
      ((tickerRowsR t raws).map (fun r => r.date)).drop 13 := by
  have hclean : cleanTable raws = raws.map cleanOf := cleanTable_of_complete raws h
  have h1 : tickerRowsF t (featureEngine raws) =
      dropnaAll (tickerRowsF t (addDerived (cleanTable raws))) := by
    unfold featureEngine preTable dropnaAll tickerRowsF
    exact List.filter_comm _ _ _
  rw [h1, derive_filter_ticker]
  unfold dropnaAll
  rw [List.filter_map]
  have hcong :
      List.filter (rowComplete ∘ fun x : CleanRow × ℕ => mkFeat (cleanTable raws) x.1 x.2)
        ((tickerRowsC t (cleanTable raws)).zip
          (List.range' 0 (tickerRowsC t (cleanTable raws)).length)) =
      List.filter (fun x : CleanRow × ℕ => decide (0 + 13 ≤ x.2))
        ((tickerRowsC t (cleanTable raws)).zip
          (List.range' 0 (tickerRowsC t (cleanTable raws)).length)) := by
    apply List.filter_congr
    intro x hx
    obtain ⟨r, p⟩ := x
    have hmem := List.of_mem_zip hx
    have hrg : r ∈ tickerRowsC t (cleanTable raws) := hmem.1
    have hpr : p < (tickerRowsC t (cleanTable raws)).length := by
      have := hmem.2
      rw [List.mem_range'_1] at this
      omega
    have hrt : r.ticker = t := tickerRowsC_all t (cleanTable raws) r hrg
    have hrrows : r ∈ cleanTable raws := List.mem_of_mem_filter hrg
    have hrc : cleanRawComplete r = true := by
      rw [hclean] at hrrows
      rw [List.mem_map] at hrrows
      obtain ⟨a, ha, rfl⟩ := hrrows
      exact cleanRawComplete_cleanOf a (List.all_eq_true.mp h a ha)
    have hplen : p < (groupAdj r.ticker (cleanTable raws)).length := by
      rw [hrt, groupAdj_length]
      exact hpr
    have := rowComplete_mkFeat (cleanTable raws) r p hrc hplen
    simpa using this
  rw [hcong, zip_range'_filter_ge 13 (tickerRowsC t (cleanTable raws)) 0]
  rw [List.map_map]
  have hdm :
      ((fun r : FeatRow => r.date) ∘ fun x : CleanRow × ℕ => mkFeat (cleanTable raws) x.1 x.2) =
        ((fun r : CleanRow => r.date) ∘ Prod.fst) := by
    funext x
    simp [mkFeat_date]
  rw [hdm, ← List.map_map, List.map_fst_zip]
  · rw [hclean, tickerRowsC_map_cleanOf, ← List.map_drop, ← List.map_drop,
      List.map_map]
    rfl
  · rw [List.length_drop, List.length_range']

/-- Raw XOM-style table with one late hole: day 15's `Volume` is SQL
`NULL`, every other field present. -/
def xomRawHole : List RawRow :=
  (List.range 15).map (fun i =>
    if i = 14 then { xomRow 14 with volumeC := none } else xomRow i)

/-- C3 counterexample: in `xomRawHole`, the day-15 row has every derived
field defined, yet `dropna()` excludes it (its raw `Volume` is null), so
the emitted rows `[day 14]` are not a suffix of the ticker's raw
history. -/
theorem c3_counterexample_raw_null_also_drops :
    derivedComplete ((preTable xomRawHole).getD 14 dFeat) = true ∧
    (featureEngine xomRawHole).map (fun r => r.date) = [14] :=
  ⟨by decide, by decide⟩

/-- C3 (amended): a row is excluded exactly when it has at least one null
field, derived or raw; provided every raw field of every row is present,
that criterion degenerates to "some undefined derived field" and for
every ticker the emitted rows are the strict suffix of its chronological
raw rows starting at per-ticker position 13. -/
theorem c3_amended_warmup_suffix (raws : List RawRow)
    (h : rawsAllComplete raws = true) (t : String) :
    (tickerRowsF t (featureEngine raws)).map (fun r => r.date) =
      ((tickerRowsR t raws).map (fun r => r.date)).drop 13 :=
  warmup_suffix raws h t

/-- Witness for the amended C3 at the concrete 15-day XOM table. -/
theorem c3_amended_warmup_suffix_witness :
    rawsAllComplete xomRaw = true ∧
    (tickerRowsF "XOM" (featureEngine xomRaw)).map (fun r => r.date) =
      ((tickerRowsR "XOM" xomRaw).map (fun r => r.date)).drop 13 :=
  ⟨by decide, c3_amended_warmup_suffix xomRaw (by decide) "XOM"⟩

/-- C8: cleaning coerces every non-numeric `Adj Close` to null and drops
exactly those rows before any feature computation; rows with numeric
`Adj Close` survive with every column unchanged.  The cleaning function is
total: malformed cells never raise. -/
theorem c8_nonnumeric_rows_dropped (raws : List RawRow) :
    cleanTable raws = (raws.filter (fun r => r.adjClose.isNum)).map cleanOf :=
  cleanTable_eq_filter_map raws

/-! ### C4: derived columns depend only on the row's own ticker partition -/

theorem tickerRowsC_cleanTable (t : String) (raws : List RawRow) :
    tickerRowsC t (cleanTable raws) = cleanTable (tickerRowsR t raws) := by
  rw [cleanTable_eq_filter_map, cleanTable_eq_filter_map]
  unfold tickerRowsC tickerRowsR
  rw [List.filter_map]
  have hp : ((fun r : CleanRow => r.ticker == t) ∘ cleanOf) =
      (fun r : RawRow => r.ticker == t) := rfl
  rw [hp, List.filter_comm]

theorem mkFeat_congr (rows₁ rows₂ : List CleanRow) (r : CleanRow) (p : ℕ)
    (h : groupAdj r.ticker rows₁ = groupAdj r.ticker rows₂) :
    mkFeat rows₁ r p = mkFeat rows₂ r p := by
  unfold mkFeat
  rw [h]

theorem tickerRowsF_featureEngine (t : String) (raws : List RawRow) :
    tickerRowsF t (featureEngine raws) =
      dropnaAll (tickerRowsF t (addDerived (cleanTable raws))) := by
  unfold featureEngine preTable dropnaAll tickerRowsF
  exact List.filter_comm _ _ _

/-- C4: each derived field is computed only from rows of the same ticker:
two raw tables that agree on ticker `t`'s rows yield the same processed
rows for `t`, derived fields included (no cross-ticker leakage). -/
theorem c4_no_cross_ticker_leakage (t : String) (raws₁ raws₂ : List RawRow)
    (h : tickerRowsR t raws₁ = tickerRowsR t raws₂) :
    tickerRowsF t (featureEngine raws₁) = tickerRowsF t (featureEngine raws₂) := by
  have hg : tickerRowsC t (cleanTable raws₁) = tickerRowsC t (cleanTable raws₂) := by
    rw [tickerRowsC_cleanTable, tickerRowsC_cleanTable, h]
  have hadj : groupAdj t (cleanTable raws₁) = groupAdj t (cleanTable raws₂) := by
    unfold groupAdj
    rw [hg]
  rw [tickerRowsF_featureEngine, tickerRowsF_featureEngine,
    derive_filter_ticker, derive_filter_ticker, hg]
  congr 1
  apply List.map_congr_left
  intro x hx
  obtain ⟨r, p⟩ := x
  have hrt : r.ticker = t :=
    tickerRowsC_all t (cleanTable raws₂) r (List.of_mem_zip hx).1
  apply mkFeat_congr
  rw [hrt]
  exact hadj

/-- A second ticker's row, used to vary the table away from XOM. -/
def cvxRow : RawRow :=
  { date := 99, ticker := "CVX", company := "Chevron",
    openC := some 2, highC := some 2, lowC := some 2, closeC := some 2,
    volumeC := some 500, adjClose := .num 3 }

/-- Witness for C4: adding an unrelated CVX row leaves XOM's processed
rows unchanged. -/
theorem c4_no_cross_ticker_leakage_witness :
    tickerRowsR "XOM" (xomRaw ++ [cvxRow]) = tickerRowsR "XOM" xomRaw ∧
    tickerRowsF "XOM" (featureEngine (xomRaw ++ [cvxRow])) =
      tickerRowsF "XOM" (featureEngine xomRaw) :=
  ⟨by decide, c4_no_cross_ticker_leakage "XOM" (xomRaw ++ [cvxRow]) xomRaw (by decide)⟩

/-! ### Access to the i-th row of a ticker partition of the derived table -/

theorem zip_range'_map_getD {β : Type} (F : CleanRow × ℕ → β) (d : β) :
    ∀ (g : List CleanRow) (a i : ℕ), i < g.length →
      ((g.zip (List.range' a g.length)).map F).getD i d = F (g.getD i dClean, a + i) := by
  intro g
  induction g with
  | nil => intro a i hi; exact absurd hi (Nat.not_lt_zero i)
  | cons r rest ih =>
      intro a i hi
      cases i with
      | zero =>
          simp [List.range'_succ]
      | succ i =>
          simp only [List.length_cons, List.range'_succ, List.zip_cons_cons,
            List.map_cons, List.getD_cons_succ]
          rw [ih (a + 1) i (Nat.lt_of_succ_lt_succ hi)]
          have haux : a + 1 + i = a + (i + 1) := by omega
          rw [haux]

theorem tickerRowsF_preTable_length (raws : List RawRow) (t : String) :
    (tickerRowsF t (preTable raws)).length =
      (tickerRowsC t (cleanTable raws)).length := by
  unfold preTable
  rw [derive_filter_ticker]
  simp [List.length_zip, List.length_range']

theorem tickerRowsF_preTable_getD (raws : List RawRow) (t : String) (i : ℕ)
    (hi : i < (tickerRowsC t (cleanTable raws)).length) :
    (tickerRowsF t (preTable raws)).getD i dFeat =
      mkFeat (cleanTable raws) ((tickerRowsC t (cleanTable raws)).getD i dClean) i := by
  unfold preTable
  rw [derive_filter_ticker, zip_range'_map_getD _ _ _ 0 i hi, Nat.zero_add]

theorem tickerRowsC_getD_ticker (t : String) (rows : List CleanRow) (i : ℕ)
    (hi : i < (tickerRowsC t rows).length) :
    ((tickerRowsC t rows).getD i dClean).ticker = t := by
  rw [List.getD_eq_getElem _ _ hi]
  exact tickerRowsC_all t rows _ (List.getElem_mem hi)

/-! ### List-sum / Finset-sum bridges for the window statistics -/

theorem sum_map_range' (f : ℕ → ℚ) :
    ∀ (w a : ℕ), ((List.range' a w).map f).sum = ∑ j ∈ Finset.Ico a (a + w), f j := by
  intro w
  induction w with
  | zero => intro a; simp
  | succ w ih =>
      intro a
      rw [List.range'_succ, List.map_cons, List.sum_cons, ih (a + 1),
        Finset.sum_eq_sum_Ico_succ_bot (show a < a + (w + 1) by omega) f]
      have haux : a + 1 + w = a + (w + 1) := by omega
      rw [haux]

theorem drop_take_eq_map_range' (xs : List ℚ) :
    ∀ (k a : ℕ), a + k ≤ xs.length →
      (List.range' a k).map (fun j => xs.getD j 0) = (xs.drop a).take k := by
  intro k
  induction k with
  | zero => intro a _; simp
  | succ k ih =>
      intro a h
      have ha : a < xs.length := by omega
      rw [List.range'_succ, List.map_cons, List.drop_eq_getElem_cons ha,
        List.take_succ_cons, ih (a + 1) (by omega)]
      congr 1
      exact List.getD_eq_getElem xs 0 ha

/-! ### Values of the derived columns, in the spec's indexing -/

/-- The spec's moving average: the arithmetic mean of the adjusted close
over the rows `i-w+1 .. i` of the partition. -/
def specWindowMean (adj : ℕ → ℚ) (w i : ℕ) : ℚ :=
  (∑ j ∈ Finset.Ico (i + 1 - w) (i + 1), adj j) / (w : ℚ)

/-- The spec's daily return at row `j`: `adjClose[j] / adjClose[j-1] - 1`. -/
def specRet (adj : ℕ → ℚ) (j : ℕ) : ℚ := adj j / adj (j - 1) - 1

/-- The spec's 7-return volatility (tracked as its square): the sample
variance of the 7 most recent daily returns ending at row `i`, i.e. the
returns at rows `i-6 .. i`. -/
def specVol7Sq (adj : ℕ → ℚ) (i : ℕ) : ℚ :=
  (∑ j ∈ Finset.Ico (i - 6) (i + 1),
      (specRet adj j - (∑ k ∈ Finset.Ico (i - 6) (i + 1), specRet adj k) / 7) ^ 2) / 6

theorem rollingMeanF_eq_spec (w : ℕ) (xs : List ℚ) (i : ℕ)
    (hi : i < xs.length) (hw : w ≤ i + 1) :
    rollingMeanF w xs i = some (specWindowMean (fun j => xs.getD j 0) w i) := by
  unfold rollingMeanF specWindowMean listMean
  rw [if_pos hi, if_pos hw]
  congr 1
  simp only [List.length_map, List.length_range']
  rw [sum_map_range' (fun j => xs.getD j 0) w (i + 1 - w), Nat.sub_add_cancel hw]

theorem rollingMeanF_eq_none (w : ℕ) (xs : List ℚ) (i : ℕ)
    (hi : i < xs.length) (hw : ¬ w ≤ i + 1) :
    rollingMeanF w xs i = none := by
  unfold rollingMeanF
  rw [if_pos hi, if_neg hw]

theorem pctChangeF_eq_some (xs : List ℚ) (i : ℕ)
    (hi : i < xs.length) (h1 : 1 ≤ i) :
    pctChangeF xs i = some (xs.getD i 0 / xs.getD (i - 1) 0 - 1) := by
  unfold pctChangeF
  rw [if_pos hi, if_pos h1]

theorem pctChangeF_eq_none (xs : List ℚ) (i : ℕ)
    (hi : i < xs.length) (h1 : ¬ 1 ≤ i) :
    pctChangeF xs i = none := by
  unfold pctChangeF
  rw [if_pos hi, if_neg h1]

theorem filterMap_id_map_eq (f : ℕ → ℚ) (g : ℕ → Option ℚ) :
    ∀ (l : List ℕ), (∀ j ∈ l, g j = some (f j)) →
      (l.map g).filterMap id = l.map f := by
  intro l
  induction l with
  | nil => intro _; rfl
  | cons j rest ih =>
      intro h
      rw [List.map_cons, List.map_cons, List.filterMap_cons, h j (by simp)]
      rw [ih (fun x hx => h x (by simp [hx]))]
      rfl

theorem pct_window_all (xs : List ℚ) (i : ℕ) (hi : i < xs.length) (h7 : 7 ≤ i) :
    ((List.range' (i + 1 - 7) 7).map (pctChangeF xs)).all Option.isSome = true := by
  rw [List.all_eq_true]
  intro o ho
  rw [List.mem_map] at ho
  obtain ⟨j, hj, rfl⟩ := ho
  rw [List.mem_range'_1] at hj
  rw [pctChangeF_isSome xs j (by omega)]
  simp only [decide_eq_true_eq]
  omega

theorem sampleVar_map_range' (f : ℕ → ℚ) (a : ℕ) :
    sampleVar ((List.range' a 7).map f) =
      (∑ j ∈ Finset.Ico a (a + 7),
          (f j - (∑ k ∈ Finset.Ico a (a + 7), f k) / 7) ^ 2) / 6 := by
  unfold sampleVar listMean
  simp only [List.length_map, List.length_range', List.map_map, Function.comp_def]
  simp only [sum_map_range' f 7 a]
  rw [sum_map_range' (fun j => (f j - (∑ k ∈ Finset.Ico a (a + 7), f k) / ((7 : ℕ) : ℚ)) ^ 2) 7 a]
  norm_num

theorem rollingStdSqF_pct_eq (xs : List ℚ) (i : ℕ)
    (hi : i < xs.length) (h7 : 7 ≤ i) :
    rollingStdSqF 7 xs.length (pctChangeF xs) i =
      some (specVol7Sq (fun j => xs.getD j 0) i) := by
  unfold rollingStdSqF
  rw [if_pos hi, if_pos (show 7 ≤ i + 1 by omega),
    if_pos (pct_window_all xs i hi h7)]
  congr 1
  rw [filterMap_id_map_eq (fun j => xs.getD j 0 / xs.getD (j - 1) 0 - 1)
    (pctChangeF xs) _ ?hmem]
  case hmem =>
    intro j hj
    rw [List.mem_range'_1] at hj
    exact pctChangeF_eq_some xs j (by omega) (by omega)
  have h16 : i + 1 - 7 = i - 6 := by omega
  rw [h16, sampleVar_map_range']
  unfold specVol7Sq specRet
  have h17 : i - 6 + 7 = i + 1 := by omega
  rw [h17]

theorem rollingStdSqF_pct_eq_none (xs : List ℚ) (i : ℕ)
    (hi : i < xs.length) (h7 : ¬ 7 ≤ i) :
    rollingStdSqF 7 xs.length (pctChangeF xs) i = none := by
  have := rollingStdSqF_pct_isSome xs i hi
  rw [decide_eq_false h7] at this
  exact Option.not_isSome_iff_eq_none.mp (by rw [this]; exact Bool.false_ne_true)

theorem mkFeat_ma7 (rows : List CleanRow) (r : CleanRow) (p : ℕ) :
    (mkFeat rows r p).ma7 = rollingMeanF 7 (groupAdj r.ticker rows) p := rfl

theorem mkFeat_ma14 (rows : List CleanRow) (r : CleanRow) (p : ℕ) :
    (mkFeat rows r p).ma14 = rollingMeanF 14 (groupAdj r.ticker rows) p := rfl

theorem mkFeat_dailyRet (rows : List CleanRow) (r : CleanRow) (p : ℕ) :
    (mkFeat rows r p).dailyRet = pctChangeF (groupAdj r.ticker rows) p := rfl

theorem mkFeat_volSq (rows : List CleanRow) (r : CleanRow) (p : ℕ) :
    (mkFeat rows r p).volSq =
      rollingStdSqF 7 (groupAdj r.ticker rows).length
        (pctChangeF (groupAdj r.ticker rows)) p := rfl

theorem mkFeat_lag1 (rows : List CleanRow) (r : CleanRow) (p : ℕ) :
    (mkFeat rows r p).lag1 = shiftF 1 (groupAdj r.ticker rows) p := rfl

theorem mkFeat_lag2 (rows : List CleanRow) (r : CleanRow) (p : ℕ) :
    (mkFeat rows r p).lag2 = shiftF 2 (groupAdj r.ticker rows) p := rfl

/-- The adjusted-close sequence of ticker `t`'s cleaned partition, in
stored order. -/
def adjSeq (t : String) (raws : List RawRow) : List ℚ :=
  groupAdj t (cleanTable raws)

/-- Dates ascending along a raw row list. -/
def sortedByDate : List RawRow → Bool
  | [] => true
  | [_] => true
  | r :: s :: rest => decide (r.date ≤ s.date) && sortedByDate (s :: rest)

/-- C5: inside a ticker partition sorted ascending by date, the `w`-day
moving-average column (`w ∈ {7, 14}`) at partition row `i` is the
arithmetic mean of the adjusted close over rows `i-w+1 .. i`, and null
while fewer than `w` rows are available; at the first eligible row
(`i = 6`) the 7-day column is the plain average of the partition's first
seven adjusted closes. -/
theorem c5_moving_average_window (raws : List RawRow) (t : String)
    (hsort : sortedByDate (tickerRowsR t raws) = true)
    (i : ℕ) (hi : i < (tickerRowsF t (preTable raws)).length) :
    ((tickerRowsF t (preTable raws)).getD i dFeat).ma7 =
        (if 7 ≤ i + 1 then
          some (specWindowMean (fun j => (adjSeq t raws).getD j 0) 7 i) else none) ∧
    ((tickerRowsF t (preTable raws)).getD i dFeat).ma14 =
        (if 14 ≤ i + 1 then
          some (specWindowMean (fun j => (adjSeq t raws).getD j 0) 14 i) else none) ∧
    (i = 6 → ((tickerRowsF t (preTable raws)).getD i dFeat).ma7 =
        some (((adjSeq t raws).take 7).sum / 7)) := by
  rw [tickerRowsF_preTable_length] at hi
  rw [tickerRowsF_preTable_getD raws t i hi]
  have hrt : ((tickerRowsC t (cleanTable raws)).getD i dClean).ticker = t :=
    tickerRowsC_getD_ticker t (cleanTable raws) i hi
  have hadj : groupAdj ((tickerRowsC t (cleanTable raws)).getD i dClean).ticker
      (cleanTable raws) = adjSeq t raws := by
    rw [hrt]; rfl
  have hilen : i < (adjSeq t raws).length := by
    unfold adjSeq
    rw [groupAdj_length]
    exact hi
  refine ⟨?_, ?_, ?_⟩
  · rw [mkFeat_ma7, hadj]
    by_cases h7 : 7 ≤ i + 1
    · rw [rollingMeanF_eq_spec 7 _ i hilen h7, if_pos h7]
    · rw [rollingMeanF_eq_none 7 _ i hilen h7, if_neg h7]
  · rw [mkFeat_ma14, hadj]
    by_cases h14 : 14 ≤ i + 1
    · rw [rollingMeanF_eq_spec 14 _ i hilen h14, if_pos h14]
    · rw [rollingMeanF_eq_none 14 _ i hilen h14, if_neg h14]
  · intro h6
    subst h6
    rw [mkFeat_ma7, hadj, rollingMeanF_eq_spec 7 _ 6 hilen (by omega)]
    congr 1
    unfold specWindowMean
    have htake : (adjSeq t raws).take 7 = ((adjSeq t raws).drop 0).take 7 := by
      rw [List.drop_zero]
    rw [htake, ← drop_take_eq_map_range' (adjSeq t raws) 7 0 (by omega),
      sum_map_range' (fun j => (adjSeq t raws).getD j 0) 7 0]
    norm_num

/-- Witness for C5 at the concrete XOM table, row `i = 6`. -/
theorem c5_moving_average_window_witness :
    sortedByDate (tickerRowsR "XOM" xomRaw) = true ∧
    6 < (tickerRowsF "XOM" (preTable xomRaw)).length ∧
    (((tickerRowsF "XOM" (preTable xomRaw)).getD 6 dFeat).ma7 =
        (if 7 ≤ 6 + 1 then
          some (specWindowMean (fun j => (adjSeq "XOM" xomRaw).getD j 0) 7 6) else none) ∧
    ((tickerRowsF "XOM" (preTable xomRaw)).getD 6 dFeat).ma14 =
        (if 14 ≤ 6 + 1 then
          some (specWindowMean (fun j => (adjSeq "XOM" xomRaw).getD j 0) 14 6) else none) ∧
    (6 = 6 → ((tickerRowsF "XOM" (preTable xomRaw)).getD 6 dFeat).ma7 =
        some (((adjSeq "XOM" xomRaw).take 7).sum / 7))) :=
  ⟨by decide, by decide,
    c5_moving_average_window xomRaw "XOM" (by decide) 6 (by decide)⟩

/-- C6: inside a ticker partition, the daily-return column at partition
row `i` is `adjClose[i] / adjClose[i-1] - 1` and is undefined at the
partition's first row; the volatility column (tracked as its square) is
the sample variance of the 7 most recent daily returns ending at `i`
(rows `i-6 .. i`) and is undefined until 7 returns exist, i.e. until
`i = 7`. -/
theorem c6_daily_return_and_volatility (raws : List RawRow) (t : String)
    (i : ℕ) (hi : i < (tickerRowsF t (preTable raws)).length) :
    ((tickerRowsF t (preTable raws)).getD i dFeat).dailyRet =
        (if 1 ≤ i then
          some (specRet (fun j => (adjSeq t raws).getD j 0) i) else none) ∧
    ((tickerRowsF t (preTable raws)).getD i dFeat).volSq =
        (if 7 ≤ i then
          some (specVol7Sq (fun j => (adjSeq t raws).getD j 0) i) else none) := by
  rw [tickerRowsF_preTable_length] at hi
  rw [tickerRowsF_preTable_getD raws t i hi]
  have hrt : ((tickerRowsC t (cleanTable raws)).getD i dClean).ticker = t :=
    tickerRowsC_getD_ticker t (cleanTable raws) i hi
  have hadj : groupAdj ((tickerRowsC t (cleanTable raws)).getD i dClean).ticker
      (cleanTable raws) = adjSeq t raws := by
    rw [hrt]; rfl
  have hilen : i < (adjSeq t raws).length := by
    unfold adjSeq
    rw [groupAdj_length]
    exact hi
  constructor
  · rw [mkFeat_dailyRet, hadj]
    by_cases h1 : 1 ≤ i
    · rw [pctChangeF_eq_some _ i hilen h1, if_pos h1]
      rfl
    · rw [pctChangeF_eq_none _ i hilen h1, if_neg h1]
  · rw [mkFeat_volSq, hadj]
    by_cases h7 : 7 ≤ i
    · rw [rollingStdSqF_pct_eq _ i hilen h7, if_pos h7]
    · rw [rollingStdSqF_pct_eq_none _ i hilen h7, if_neg h7]

/-- Witness for C6 at the concrete XOM table, row `i = 7` (the first row
with a defined volatility). -/
theorem c6_daily_return_and_volatility_witness :
    7 < (tickerRowsF "XOM" (preTable xomRaw)).length ∧
    (((tickerRowsF "XOM" (preTable xomRaw)).getD 7 dFeat).dailyRet =
        (if 1 ≤ 7 then
          some (specRet (fun j => (adjSeq "XOM" xomRaw).getD j 0) 7) else none) ∧
    ((tickerRowsF "XOM" (preTable xomRaw)).getD 7 dFeat).volSq =
        (if 7 ≤ 7 then
          some (specVol7Sq (fun j => (adjSeq "XOM" xomRaw).getD j 0) 7) else none)) :=
  ⟨by decide, c6_daily_return_and_volatility xomRaw "XOM" 7 (by decide)⟩

/-! ### The database and the feature-engine job (C7) -/

/-- The SQLite file: the raw `stocks` table (append-only) and the
`processed_stocks` table (`none` while it does not exist yet). -/
structure Database where
  stocks : List RawRow
  processedStocks : Option (List FeatRow)
deriving DecidableEq

/-- One run of the preprocessing notebook: read the entire `stocks`
table, recompute the features, and write them with
`to_sql('processed_stocks', conn, if_exists='replace')`. -/
def runFeatureEngineJob (db : Database) : Database :=
  { db with processedStocks := some (featureEngine db.stocks) }

/-- C7: the feature engine is deterministic and its write fully replaces
the processed table: two runs over identical raw data produce identical
processed tables regardless of what the processed table previously held,
the job is idempotent, and the output is recomputed from the entire raw
table. -/
theorem c7_deterministic_full_replace (db₁ db₂ : Database)
    (h : db₁.stocks = db₂.stocks) :
    (runFeatureEngineJob db₁).processedStocks =
        (runFeatureEngineJob db₂).processedStocks ∧
    runFeatureEngineJob (runFeatureEngineJob db₁) = runFeatureEngineJob db₁ ∧
    (runFeatureEngineJob db₁).processedStocks =
        some (featureEngine db₁.stocks) := by
  unfold runFeatureEngineJob
  exact ⟨by simp [h], rfl, rfl⟩

/-- A database holding the XOM table and no processed table yet. -/
def dbA : Database := ⟨xomRaw, none⟩

/-- A database holding the XOM table and a stale processed table. -/
def dbB : Database := ⟨xomRaw, some []⟩

/-- Witness for C7: the stale processed table of `dbB` does not influence
the run's output. -/
theorem c7_deterministic_full_replace_witness :
    dbA.stocks = dbB.stocks ∧
    ((runFeatureEngineJob dbA).processedStocks =
        (runFeatureEngineJob dbB).processedStocks ∧
    runFeatureEngineJob (runFeatureEngineJob dbA) = runFeatureEngineJob dbA ∧
    (runFeatureEngineJob dbA).processedStocks =
        some (featureEngine dbA.stocks)) :=
  ⟨rfl, c7_deterministic_full_replace dbA dbB rfl⟩

/-! ### The fetcher (C9) -/

/-- A row as returned by the market-data download, OHLCV indexed by date
(the multi-level column headers already flattened). -/
structure FetchedRow where
  date : ℤ
  openC : Option ℚ
  highC : Option ℚ
  lowC : Option ℚ
  closeC : Option ℚ
  adjCloseC : RawCell
  volumeC : Option ℚ
deriving DecidableEq

/-- Adds the `Company` and `Ticker` metadata columns to a fetched row,
as `fetch_and_store_data` does before writing. -/
def tagRow (ticker company : String) (f : FetchedRow) : RawRow :=
  { date := f.date, ticker := ticker, company := company, openC := f.openC,
    highC := f.highC, lowC := f.lowC, closeC := f.closeC,
    volumeC := f.volumeC, adjClose := f.adjCloseC }

/-- One entry of the hard-coded ticker configuration list. -/
structure StockSpec where
  ticker : String
  company : String

/-- Embeds `fetch_and_store_data(ticker, company_name, db_path)`.  The
external interaction inside the `try` block (the `yf.download` call and
the `to_sql` append) is abstracted as the oracle `download`; `.error`
stands for any exception raised there.  On success the rows are tagged
and appended to the `stocks` table; on failure the error is printed and
the database is left untouched — the exception never escapes the
function. -/
def fetchAndStoreData (download : String → Except String (List FetchedRow))
    (ticker company : String) (db : Database) : Database :=
  match download ticker with
  | .ok rows => { db with stocks := db.stocks ++ rows.map (tagRow ticker company) }
  | .error _ => db

/-- The batch loop `for stock in stocks: fetch_and_store_data(...)`. -/
def runBatch (download : String → Except String (List FetchedRow))
    (specs : List StockSpec) (db : Database) : Database :=
  specs.foldl (fun d s => fetchAndStoreData download s.ticker s.company d) db

/-- The rows one ticker contributes to the raw table: its tagged download
on success, nothing on failure. -/
def fetchContribution (download : String → Except String (List FetchedRow))
    (s : StockSpec) : List RawRow :=
  match download s.ticker with
  | .ok rows => rows.map (tagRow s.ticker s.company)
  | .error _ => []

/-- C9: for every download oracle — in particular any oracle failing on
some tickers — the batch appends exactly the per-ticker contributions of
the whole list, in order: a failure for one ticker is absorbed inside
`fetch_and_store_data` and every subsequent ticker is still fetched and
stored. -/
theorem c9_batch_tolerates_per_ticker_failure
    (download : String → Except String (List FetchedRow))
    (specs : List StockSpec) (db : Database) :
    runBatch download specs db =
      { db with stocks :=
          db.stocks ++ (specs.map (fetchContribution download)).flatten } := by
  induction specs generalizing db with
  | nil => simp [runBatch]
  | cons s rest ih =>
      unfold runBatch at ih ⊢
      rw [List.foldl_cons]
      cases hdl : download s.ticker with
      | ok rows =>
          rw [show fetchAndStoreData download s.ticker s.company db =
              { db with stocks := db.stocks ++ rows.map (tagRow s.ticker s.company) }
            from by unfold fetchAndStoreData; rw [hdl]]
          rw [ih]
          simp [fetchContribution, hdl, List.append_assoc]
      | error e =>
          rw [show fetchAndStoreData download s.ticker s.company db = db
            from by unfold fetchAndStoreData; rw [hdl]]
          rw [ih]
          simp [fetchContribution, hdl]

/-! ### A pointwise Boolean relation on lists, for the except-dates
invariance (C10) -/

/-- Pointwise pairing of two lists by a Boolean relation: `true` exactly
when the lists have equal length and related entries. -/
def listRel {α : Type} (p : α → α → Bool) : List α → List α → Bool
  | [], [] => true
  | a :: as, b :: bs => p a b && listRel p as bs
  | _, _ => false

theorem listRel_length {α : Type} (p : α → α → Bool) :
    ∀ l₁ l₂ : List α, listRel p l₁ l₂ = true → l₁.length = l₂.length := by
  intro l₁
  induction l₁ with
  | nil =>
      intro l₂ h
      cases l₂ with
      | nil => rfl
      | cons b bs => simp [listRel] at h
  | cons a as ih =>
      intro l₂ h
      cases l₂ with
      | nil => simp [listRel] at h
      | cons b bs =>
          rw [listRel, Bool.and_eq_true] at h
          simp [ih bs h.2]

theorem listRel_append {α : Type} (p : α → α → Bool) :
    ∀ l₁ l₂ m₁ m₂ : List α, listRel p l₁ l₂ = true → listRel p m₁ m₂ = true →
      listRel p (l₁ ++ m₁) (l₂ ++ m₂) = true := by
  intro l₁
  induction l₁ with
  | nil =>
      intro l₂ m₁ m₂ h hm
      cases l₂ with
      | nil => simpa using hm
      | cons b bs => simp [listRel] at h
  | cons a as ih =>
      intro l₂ m₁ m₂ h hm
      cases l₂ with
      | nil => simp [listRel] at h
      | cons b bs =>
          rw [listRel, Bool.and_eq_true] at h
          simpa [listRel, h.1] using ih bs m₁ m₂ h.2 hm

theorem listRel_map {α β : Type} (p : α → α → Bool) (q : β → β → Bool)
    (f g : α → β) (hfg : ∀ a b, p a b = true → q (f a) (g b) = true) :
    ∀ l₁ l₂ : List α, listRel p l₁ l₂ = true →
      listRel q (l₁.map f) (l₂.map g) = true := by
  intro l₁
  induction l₁ with
  | nil =>
      intro l₂ h
      cases l₂ with
      | nil => rfl
      | cons b bs => simp [listRel] at h
  | cons a as ih =>
      intro l₂ h
      cases l₂ with
      | nil => simp [listRel] at h
      | cons b bs =>
          rw [listRel, Bool.and_eq_true] at h
          simpa [listRel, hfg a b h.1] using ih bs h.2

theorem listRel_filter {α : Type} (p : α → α → Bool) (keep₁ keep₂ : α → Bool)
    (hk : ∀ a b, p a b = true → keep₁ a = keep₂ b) :
    ∀ l₁ l₂ : List α, listRel p l₁ l₂ = true →
      listRel p (l₁.filter keep₁) (l₂.filter keep₂) = true := by
  intro l₁
  induction l₁ with
  | nil =>
      intro l₂ h
      cases l₂ with
      | nil => rfl
      | cons b bs => simp [listRel] at h
  | cons a as ih =>
      intro l₂ h
      cases l₂ with
      | nil => simp [listRel] at h
      | cons b bs =>
          rw [listRel, Bool.and_eq_true] at h
          rw [List.filter_cons, List.filter_cons, ← hk a b h.1]
          cases hka : keep₁ a with
          | true => simpa [listRel, h.1] using ih bs h.2
          | false => simpa using ih bs h.2

theorem listRel_filterMap {α β : Type} (p : α → α → Bool) (q : β → β → Bool)
    (f g : α → Option β)
    (hfg : ∀ a b, p a b = true →
      (f a = none ∧ g b = none) ∨
      ∃ x y, f a = some x ∧ g b = some y ∧ q x y = true) :
    ∀ l₁ l₂ : List α, listRel p l₁ l₂ = true →
      listRel q (l₁.filterMap f) (l₂.filterMap g) = true := by
  intro l₁
  induction l₁ with
  | nil =>
      intro l₂ h
      cases l₂ with
      | nil => rfl
      | cons b bs => simp [listRel] at h
  | cons a as ih =>
      intro l₂ h
      cases l₂ with
      | nil => simp [listRel] at h
      | cons b bs =>
          rw [listRel, Bool.and_eq_true] at h
          rw [List.filterMap_cons, List.filterMap_cons]
          rcases hfg a b h.1 with ⟨hfa, hgb⟩ | ⟨x, y, hfa, hgb, hq⟩
          · rw [hfa, hgb]
            exact ih bs h.2
          · rw [hfa, hgb]
            simpa [listRel, hq] using ih bs h.2

theorem listRel_filter_map_eq {α β : Type} (p : α → α → Bool)
    (keep₁ keep₂ : α → Bool) (f g : α → β)
    (hk : ∀ a b, p a b = true → keep₁ a = keep₂ b)
    (hf : ∀ a b, p a b = true → f a = g b) :
    ∀ l₁ l₂ : List α, listRel p l₁ l₂ = true →
      (l₁.filter keep₁).map f = (l₂.filter keep₂).map g := by
  intro l₁
  induction l₁ with
  | nil =>
      intro l₂ h
      cases l₂ with
      | nil => rfl
      | cons b bs => simp [listRel] at h
  | cons a as ih =>
      intro l₂ h
      cases l₂ with
      | nil => simp [listRel] at h
      | cons b bs =>
          rw [listRel, Bool.and_eq_true] at h
          rw [List.filter_cons, List.filter_cons, ← hk a b h.1]
          cases hka : keep₁ a with
          | true => simp [hf a b h.1, ih bs h.2]
          | false => exact ih bs h.2

/-! ### C10: the engine reads stored order, never dates -/

/-- Raw rows equal in every column except `Date`. -/
def rawExceptDate (r s : RawRow) : Bool :=
  decide (r.ticker = s.ticker) && decide (r.company = s.company) &&
  decide (r.openC = s.openC) && decide (r.highC = s.highC) &&
  decide (r.lowC = s.lowC) && decide (r.closeC = s.closeC) &&
  decide (r.volumeC = s.volumeC) && decide (r.adjClose = s.adjClose)

/-- Clean rows equal in every column except `Date`. -/
def cleanExceptDate (r s : CleanRow) : Bool :=
  decide (r.ticker = s.ticker) && decide (r.company = s.company) &&
  decide (r.openC = s.openC) && decide (r.highC = s.highC) &&
  decide (r.lowC = s.lowC) && decide (r.closeC = s.closeC) &&
  decide (r.volumeC = s.volumeC) && decide (r.adjClose = s.adjClose)

/-- Feature rows equal in every column — the derived ones included —
except `Date`. -/
def featExceptDate (r s : FeatRow) : Bool :=
  decide (r.ticker = s.ticker) && decide (r.company = s.company) &&
  decide (r.openC = s.openC) && decide (r.highC = s.highC) &&
  decide (r.lowC = s.lowC) && decide (r.closeC = s.closeC) &&
  decide (r.volumeC = s.volumeC) && decide (r.adjClose = s.adjClose) &&
  decide (r.ma7 = s.ma7) && decide (r.ma14 = s.ma14) &&
  decide (r.dailyRet = s.dailyRet) && decide (r.volSq = s.volSq) &&
  decide (r.lag1 = s.lag1) && decide (r.lag2 = s.lag2)

/-- Position-tagged clean rows: related rows, equal positions. -/
def pairExceptDate (x y : CleanRow × ℕ) : Bool :=
  cleanExceptDate x.1 y.1 && decide (x.2 = y.2)

theorem clean_except_dates (raws₁ raws₂ : List RawRow)
    (h : listRel rawExceptDate raws₁ raws₂ = true) :
    listRel cleanExceptDate (cleanTable raws₁) (cleanTable raws₂) = true := by
  unfold cleanTable
  apply listRel_filterMap rawExceptDate cleanExceptDate _ _ ?hopt
  · exact listRel_map rawExceptDate rawExceptDate coerceAdjClose coerceAdjClose
      (by
        intro a b hab
        simp only [rawExceptDate, Bool.and_eq_true, decide_eq_true_eq] at hab ⊢
        obtain ⟨⟨⟨⟨⟨⟨⟨h1, h2⟩, h3⟩, h4⟩, h5⟩, h6⟩, h7⟩, h8⟩ := hab
        unfold coerceAdjClose
        exact ⟨⟨⟨⟨⟨⟨⟨h1, h2⟩, h3⟩, h4⟩, h5⟩, h6⟩, h7⟩, by rw [h8]⟩)
      raws₁ raws₂ h
  case hopt =>
    intro a b hab
    simp only [rawExceptDate, Bool.and_eq_true, decide_eq_true_eq] at hab
    obtain ⟨⟨⟨⟨⟨⟨⟨h1, h2⟩, h3⟩, h4⟩, h5⟩, h6⟩, h7⟩, h8⟩ := hab
    cases hac : a.adjClose with
    | num q =>
        have hbc : b.adjClose = RawCell.num q := by rw [← h8, hac]
        right
        refine ⟨⟨a.date, a.ticker, a.company, a.openC, a.highC, a.lowC,
            a.closeC, a.volumeC, q⟩,
          ⟨b.date, b.ticker, b.company, b.openC, b.highC, b.lowC,
            b.closeC, b.volumeC, q⟩,
          by simp only [hac], by simp only [hbc], ?_⟩
        simp only [cleanExceptDate, Bool.and_eq_true, decide_eq_true_eq]
        exact ⟨⟨⟨⟨⟨⟨⟨h1, h2⟩, h3⟩, h4⟩, h5⟩, h6⟩, h7⟩, trivial⟩
    | nonNumeric =>
        have hbc : b.adjClose = RawCell.nonNumeric := by rw [← h8, hac]
        exact Or.inl ⟨by simp only [hac], by simp only [hbc]⟩
    | null =>
        have hbc : b.adjClose = RawCell.null := by rw [← h8, hac]
        exact Or.inl ⟨by simp only [hac], by simp only [hbc]⟩

theorem groupAdj_except_dates (t : String) (c₁ c₂ : List CleanRow)
    (h : listRel cleanExceptDate c₁ c₂ = true) :
    groupAdj t c₁ = groupAdj t c₂ := by
  unfold groupAdj tickerRowsC
  apply listRel_filter_map_eq cleanExceptDate _ _ _ _ ?hk ?hf c₁ c₂ h
  case hk =>
    intro a b hab
    simp only [cleanExceptDate, Bool.and_eq_true, decide_eq_true_eq] at hab
    rw [hab.1.1.1.1.1.1.1]
  case hf =>
    intro a b hab
    simp only [cleanExceptDate, Bool.and_eq_true, decide_eq_true_eq] at hab
    exact hab.2

theorem tagPosGo_except_dates :
    ∀ (rows₁ rows₂ seen₁ seen₂ : List CleanRow),
      listRel cleanExceptDate seen₁ seen₂ = true →
      listRel cleanExceptDate rows₁ rows₂ = true →
      listRel pairExceptDate (tagPosGo seen₁ rows₁) (tagPosGo seen₂ rows₂) = true := by
  intro rows₁
  induction rows₁ with
  | nil =>
      intro rows₂ seen₁ seen₂ _ h
      cases rows₂ with
      | nil => rfl
      | cons s ss => simp [listRel] at h
  | cons r rs ih =>
      intro rows₂ seen₁ seen₂ hs h
      cases rows₂ with
      | nil => simp [listRel] at h
      | cons s ss =>
          rw [listRel, Bool.and_eq_true] at h
          obtain ⟨hh, ht⟩ := h
          have htk : r.ticker = s.ticker := by
            simp only [cleanExceptDate, Bool.and_eq_true, decide_eq_true_eq] at hh
            exact hh.1.1.1.1.1.1.1
          have hlen : (seen₁.filter (fun x => x.ticker == r.ticker)).length =
              (seen₂.filter (fun x => x.ticker == s.ticker)).length := by
            apply listRel_length cleanExceptDate
            apply listRel_filter cleanExceptDate _ _ ?hkk seen₁ seen₂ hs
            case hkk =>
              intro a b hab
              simp only [cleanExceptDate, Bool.and_eq_true, decide_eq_true_eq] at hab
              rw [hab.1.1.1.1.1.1.1, htk]
          unfold tagPosGo
          rw [listRel, Bool.and_eq_true]
          constructor
          · simp only [pairExceptDate, Bool.and_eq_true, decide_eq_true_eq]
            exact ⟨hh, hlen⟩
          · exact ih ss (seen₁ ++ [r]) (seen₂ ++ [s])
              (listRel_append cleanExceptDate seen₁ seen₂ [r] [s] hs
                (by simpa [listRel] using hh)) ht

theorem mkFeat_except_dates (rows₁ rows₂ : List CleanRow)
    (hrows : listRel cleanExceptDate rows₁ rows₂ = true)
    (x y : CleanRow × ℕ) (hxy : pairExceptDate x y = true) :
    featExceptDate (mkFeat rows₁ x.1 x.2) (mkFeat rows₂ y.1 y.2) = true := by
  simp only [pairExceptDate, Bool.and_eq_true, decide_eq_true_eq] at hxy
  obtain ⟨hh, hp⟩ := hxy
  simp only [cleanExceptDate, Bool.and_eq_true, decide_eq_true_eq] at hh
  obtain ⟨⟨⟨⟨⟨⟨⟨h1, h2⟩, h3⟩, h4⟩, h5⟩, h6⟩, h7⟩, h8⟩ := hh
  have hadj : groupAdj x.1.ticker rows₁ = groupAdj y.1.ticker rows₂ := by
    rw [h1]
    exact groupAdj_except_dates y.1.ticker rows₁ rows₂ hrows
  simp only [featExceptDate, mkFeat, Bool.and_eq_true, decide_eq_true_eq]
  rw [hadj, hp, h1, h2, h3, h4, h5, h6, h7, h8]
  simp

theorem rowComplete_except_dates (r s : FeatRow)
    (h : featExceptDate r s = true) : rowComplete r = rowComplete s := by
  simp only [featExceptDate, Bool.and_eq_true, decide_eq_true_eq] at h
  obtain ⟨⟨⟨⟨⟨⟨⟨⟨⟨⟨⟨⟨⟨h1, h2⟩, h3⟩, h4⟩, h5⟩, h6⟩, h7⟩, h8⟩, h9⟩, h10⟩, h11⟩, h12⟩, h13⟩, h14⟩ := h
  unfold rowComplete
  rw [h3, h4, h5, h6, h7, h9, h10, h11, h12, h13, h14]

/-- Changing only the dates of the raw rows changes only the dates of the
processed rows: every ticker/price/derived column of the output is
computed from the stored row order alone, and dates are never consulted
(the engine contains no sort and its query has no ORDER BY). -/
theorem featureEngine_except_dates (raws₁ raws₂ : List RawRow)
    (h : listRel rawExceptDate raws₁ raws₂ = true) :
    listRel featExceptDate (featureEngine raws₁) (featureEngine raws₂) = true := by
  have hclean := clean_except_dates raws₁ raws₂ h
  unfold featureEngine preTable dropnaAll addDerived tagPos
  apply listRel_filter featExceptDate rowComplete rowComplete
    rowComplete_except_dates
  apply listRel_map pairExceptDate featExceptDate _ _
    (mkFeat_except_dates (cleanTable raws₁) (cleanTable raws₂) hclean)
  exact tagPosGo_except_dates (cleanTable raws₁) (cleanTable raws₂) [] [] rfl hclean

/-- A single-ticker table stored in descending date order: day `16 - i`
at stored position `i`, adjusted close `10 + i`. -/
def descRow (i : ℕ) : RawRow :=
  { date := 16 - (i : ℤ), ticker := "XOM", company := "Exxon Mobil",
    openC := some 1, highC := some 1, lowC := some 1, closeC := some 1,
    volumeC := some 1000, adjClose := .num ((10 + i : ℕ) : ℚ) }

/-- Sixteen raw rows in descending date order. -/
def descRaw : List RawRow := (List.range 16).map descRow

/-- The adjusted close of the (first) cleaned row carrying date `d` —
the date-based reading of "the previous day's close". -/
def adjCloseAtDate (raws : List RawRow) (d : ℤ) : Option ℚ :=
  ((cleanTable raws).find? (fun r => r.date == d)).map (fun r => r.adjClose)

/-- C10: the feature engine never sorts by date.  First conjunct: raw
tables equal up to their `Date` columns produce processed tables equal up
to their `Date` columns — every derived column is computed from the
stored (insertion) order alone.  Remaining conjuncts: on a table stored
in descending date order, the retained row with date 2 has
`Lag_1 = 23`, the stored predecessor, while the close of the previous
calendar day (date 1) is `25` — so the derived fields match their
date-based definitions only when each ticker's rows are stored in
ascending date order. -/
theorem c10_stored_order_not_dates :
    (∀ raws₁ raws₂ : List RawRow, listRel rawExceptDate raws₁ raws₂ = true →
        listRel featExceptDate (featureEngine raws₁) (featureEngine raws₂) = true) ∧
    ((featureEngine descRaw).getD 1 dFeat).date = 2 ∧
    ((featureEngine descRaw).getD 1 dFeat).lag1 = some ((23 : ℕ) : ℚ) ∧
    adjCloseAtDate descRaw 1 = some ((25 : ℕ) : ℚ) ∧
    ((23 : ℕ) : ℚ) ≠ ((25 : ℕ) : ℚ) :=
  ⟨featureEngine_except_dates, by decide, by decide, by decide, by decide⟩

/-- The XOM table with its dates replaced by a decreasing sequence. -/
def xomRawShifted : List RawRow :=
  (List.range 15).map (fun i => { xomRow i with date := 100 - (i : ℤ) })

/-- Witness for C10's universally quantified conjunct at two concrete
tables differing only in their dates. -/
theorem c10_stored_order_not_dates_witness :
    listRel rawExceptDate xomRaw xomRawShifted = true ∧
    listRel featExceptDate (featureEngine xomRaw) (featureEngine xomRawShifted) = true :=
  ⟨by decide, c10_stored_order_not_dates.1 xomRaw xomRawShifted (by decide)⟩

/-! ### C1: the LSTM trainer's scaling

The LSTM notebook runs, in this order:
`X_scaled = MinMaxScaler().fit_transform(X)` on the full feature matrix,
then `train_test_split(X_scaled, y, test_size=0.2, random_state=42)`.
The seeded shuffle of the split happens inside scikit-learn, so the index
partition it produces enters the embedding as the parameter `isTest`. -/

/-- Minimum of a list of rationals (`0` for the empty list). -/
def listMin : List ℚ → ℚ
  | [] => 0
  | [x] => x
  | x :: xs => min x (listMin xs)

/-- Maximum of a list of rationals (`0` for the empty list). -/
def listMax : List ℚ → ℚ
  | [] => 0
  | [x] => x
  | x :: xs => max x (listMax xs)

/-- Column `j` of a row-major feature matrix. -/
def colVals (X : List (List ℚ)) (j : ℕ) : List ℚ :=
  X.map (fun row => row.getD j 0)

/-- Number of feature columns of a row-major matrix. -/
def numCols (X : List (List ℚ)) : ℕ := (X.headD []).length

/-- The state of a fitted `MinMaxScaler`: per-column data minimum and
maximum. -/
structure MinMaxParams where
  dataMin : List ℚ
  dataMax : List ℚ
deriving DecidableEq

/-- Embeds `MinMaxScaler().fit(X)`: record each column's minimum and
maximum over the rows of `X`. -/
def minMaxFit (X : List (List ℚ)) : MinMaxParams :=
  ⟨(List.range (numCols X)).map (fun j => listMin (colVals X j)),
   (List.range (numCols X)).map (fun j => listMax (colVals X j))⟩

/-- One cell of the fitted transform: `(x - min) / (max - min)`, with
scikit-learn's zero-range guard (a constant column is shifted, not
scaled). -/
def mmScale (mn mx x : ℚ) : ℚ :=
  if mx = mn then x - mn else (x - mn) / (mx - mn)

/-- The fitted transform applied to a matrix. -/
def minMaxTransform (p : MinMaxParams) (X : List (List ℚ)) : List (List ℚ) :=
  X.map (fun row => (List.range row.length).map
    (fun j => mmScale (p.dataMin.getD j 0) (p.dataMax.getD j 0) (row.getD j 0)))

/-- The rows of `X` whose index satisfies `keep`, in order — the row
selection underlying `train_test_split`. -/
def rowsWhere (keep : ℕ → Bool) (X : List (List ℚ)) : List (List ℚ) :=
  ((List.range X.length).filter keep).map (fun i => X.getD i [])

/-- The scaler state the LSTM notebook fits and saves:
`scaler.fit_transform(X)` runs on the full feature matrix `X`, before the
split. -/
def lstmScalerParams (X : List (List ℚ)) : MinMaxParams := minMaxFit X

/-- The LSTM notebook's `X_scaled`. -/
def lstmXScaled (X : List (List ℚ)) : List (List ℚ) :=
  minMaxTransform (lstmScalerParams X) X

/-- The LSTM notebook's `X_train`: the split selects rows of the
already-scaled matrix. -/
def lstmXTrain (isTest : ℕ → Bool) (X : List (List ℚ)) : List (List ℚ) :=
  rowsWhere (fun i => ! isTest i) (lstmXScaled X)

/-- The LSTM notebook's `X_test`. -/
def lstmXTest (isTest : ℕ → Bool) (X : List (List ℚ)) : List (List ℚ) :=
  rowsWhere isTest (lstmXScaled X)

/-- Follows the spec's words (the claimed shape, which is also the
Random Forest notebook's shape): the scaler is fit only on the training
partition. -/
def specTrainOnlyParams (isTest : ℕ → Bool) (X : List (List ℚ)) : MinMaxParams :=
  minMaxFit (rowsWhere (fun i => ! isTest i) X)

/-- Follows the spec's words: the training partition scaled by the
train-only-fit scaler. -/
def specTrainScaled (isTest : ℕ → Bool) (X : List (List ℚ)) : List (List ℚ) :=
  minMaxTransform (specTrainOnlyParams isTest X) (rowsWhere (fun i => ! isTest i) X)

/-- A one-feature matrix of three rows. -/
def xC1 : List (List ℚ) := [[0], [5], [10]]

/-- A split holding out exactly row 2 (the row carrying the maximum). -/
def selC1 : ℕ → Bool := fun i => i == 2

/-- C1 divergence, evaluated at a concrete input: the scaler the LSTM
code fits records the data maximum `10`, which lives in the held-out test
row, whereas a scaler fit only on the training partition records `5`; the
two fitted transforms differ, and so do the scaled training matrices. -/
theorem c1_lstm_scaler_sees_test_rows :
    lstmScalerParams xC1 = ⟨[(0 : ℚ)], [((10 : ℕ) : ℚ)]⟩ ∧
    rowsWhere selC1 xC1 = [[((10 : ℕ) : ℚ)]] ∧
    specTrainOnlyParams selC1 xC1 = ⟨[(0 : ℚ)], [((5 : ℕ) : ℚ)]⟩ ∧
    lstmScalerParams xC1 ≠ specTrainOnlyParams selC1 xC1 ∧
    lstmXTrain selC1 xC1 ≠ specTrainScaled selC1 xC1 := by
  refine ⟨by decide, by decide, by decide, by decide, ?_⟩
  have h1 : lstmXTrain selC1 xC1 =
      [[((0 : ℚ) - 0) / (10 - 0)], [((5 : ℚ) - 0) / (10 - 0)]] := rfl
  have h2 : specTrainScaled selC1 xC1 =
      [[((0 : ℚ) - 0) / (5 - 0)], [((5 : ℚ) - 0) / (5 - 0)]] := rfl
  rw [h1, h2]
  norm_num

end Project4
